import Mathlib

/-!
Verification of the keripy VDR registry module (keri/vdr/viring.py).

The registry keeps eight named sub-databases inside one keyed store.  We
embed the store shallowly: a sub-database is an association list from key
bytes to the list of stored entries at that key (in stored order), and the
whole environment maps a sub-database name to its association list.  Bytes
are lists of naturals.
-/

set_option autoImplicit false

abbrev Bytes := List Nat

/-- A sub database: association list from key to stored entries. -/
abbrev SubDB := List (Bytes × List Bytes)

/-- Lookup the entries stored at a key (empty when the key is absent). -/
def dbGet : SubDB → Bytes → List Bytes
  | [], _ => []
  | (k', vs) :: rest, k => if k' = k then vs else dbGet rest k

/-- Replace (or create) the entries stored at a key. -/
def dbSet : SubDB → Bytes → List Bytes → SubDB
  | [], k, vs => [(k, vs)]
  | (k', vs') :: rest, k, vs =>
      if k' = k then (k, vs) :: rest else (k', vs') :: dbSet rest k vs

/-- Remove a key and its entries. -/
def dbDel : SubDB → Bytes → SubDB
  | [], _ => []
  | (k', vs') :: rest, k => if k' = k then rest else (k', vs') :: dbDel rest k

/-- Boolean lexicographic order on byte strings, the order the keyed store
uses for duplicate values at one key. -/
def lexLe : Bytes → Bytes → Bool
  | [], _ => true
  | _ :: _, [] => false
  | a :: as, b :: bs => if a < b then true else if b < a then false else lexLe as bs

/-- Insert a value into a list kept sorted by `le`, before the first element
it compares at-or-below. -/
def insertSorted (le : Bytes → Bytes → Bool) (x : Bytes) : List Bytes → List Bytes
  | [] => [x]
  | y :: ys => if le x y then x :: y :: ys else y :: insertSorted le x ys

theorem dbGet_dbSet_self (db : SubDB) (k : Bytes) (vs : List Bytes) :
    dbGet (dbSet db k vs) k = vs := by
  induction db with
  | nil => simp [dbGet, dbSet]
  | cons hd tl ih =>
      obtain ⟨k', vs'⟩ := hd
      by_cases h : k' = k <;> simp [dbGet, dbSet, h, ih]

theorem dbGet_dbSet_ne (db : SubDB) (k k' : Bytes) (vs : List Bytes)
    (h : k' ≠ k) : dbGet (dbSet db k vs) k' = dbGet db k' := by
  have hne : k ≠ k' := Ne.symm h
  induction db with
  | nil => simp [dbGet, dbSet, hne]
  | cons hd tl ih =>
      obtain ⟨k0, vs0⟩ := hd
      by_cases h0 : k0 = k
      · subst h0
        simp [dbGet, dbSet, hne]
      · simp only [dbSet, if_neg h0]
        by_cases h1 : k0 = k' <;> simp [dbGet, h1, ih]

theorem mem_insertSorted (le : Bytes → Bytes → Bool) (x a : Bytes) :
    ∀ l : List Bytes, a ∈ insertSorted le x l ↔ a = x ∨ a ∈ l := by
  intro l
  induction l with
  | nil => simp [insertSorted]
  | cons y ys ih =>
      by_cases h : le x y = true
      · simp [insertSorted, h]
      · simp only [insertSorted, if_neg h, List.mem_cons, ih]
        tauto

/-! ## Key codec

`dbing.dgKey` and `dbing.snKey` are outside the sources; they are modelled
from the spec (section 4.1): a digest key is prefix, separator, digest; a
sequence key is prefix, separator, fixed-width hexadecimal sequence number,
so lexicographic key order matches numeric order. -/

/-- ASCII code of the hexadecimal digit of value `d` (lower case letters). -/
def digitChar (d : Nat) : Nat := if d < 10 then 48 + d else 87 + d

/-- Fixed-width big-endian base-16 rendering of `n` with `w` digit chars. -/
def encodeFixed : Nat → Nat → Bytes
  | 0, _ => []
  | w + 1, n => digitChar (n / 16 ^ w) :: encodeFixed w (n % 16 ^ w)

/-- Numeric value of a hexadecimal digit char, `none` on a non-digit. -/
def digitVal (c : Nat) : Option Nat :=
  if 48 ≤ c ∧ c ≤ 57 then some (c - 48)
  else if 97 ≤ c ∧ c ≤ 102 then some (c - 87)
  else none

/-- Decode a list of hexadecimal digit chars, `none` on any non-digit. -/
def decodeHexDigits : Bytes → Option Nat
  | [] => some 0
  | c :: cs =>
      match digitVal c, decodeHexDigits cs with
      | some d, some rest => some (d * 16 ^ cs.length + rest)
      | _, _ => none

/-- Modelled from the spec: digest key is prefix, separator byte, digest
(the separator `.` is not a valid Base64 character, dbing.dgKey is outside
the sources). -/
def dgKey (pre dig : Bytes) : Bytes := pre ++ (46 :: dig)

/-- Modelled from the spec: sequence key is prefix, separator byte, 32-char
fixed-width hexadecimal sequence number (dbing.snKey is outside the
sources). -/
def snKey (pre : Bytes) (n : Nat) : Bytes := pre ++ (46 :: encodeFixed 32 n)

/-- Recover the ordinal from a sequence key of the given prefix: the key
must start with the prefix and separator and continue with exactly 32
hexadecimal digit chars. -/
def decodeSnKey (pre key : Bytes) : Option Nat :=
  if key.take (pre.length + 1) = pre ++ [46] ∧ key.length = pre.length + 33 then
    decodeHexDigits (key.drop (pre.length + 1))
  else none

/-! ## Registry state and the keyed-store disciplines

The store disciplines (`putVal`, `setVal`, `getVal`, `delVal`, `getVals`,
`addVal`, `putVals`, and the insertion-ordered `IoVal` family) live in
`dbing.LMDBer`, outside the sources; they are modelled from the spec
(section 4.2).  Duplicate values at one key are kept in lexicographic
order of the stored bytes, as the underlying dupsort store does. -/

/-- The registry environment: one keyed store holding independently named
sub databases. -/
structure Registry where
  store : Bytes → SubDB

/-- A registry with all sub databases empty. -/
def emptyReg : Registry := ⟨fun _ => []⟩

/-- Read one named sub database. -/
def readDB (reg : Registry) (db : Bytes) : SubDB := reg.store db

/-- Replace one named sub database, leaving all others untouched. -/
def writeDB (reg : Registry) (db : Bytes) (sub : SubDB) : Registry :=
  ⟨fun d => if d = db then sub else reg.store d⟩

/-- Modelled from the spec: single-value write that does not overwrite;
returns false if the key already holds a value. -/
def putVal (reg : Registry) (db key val : Bytes) : Registry × Bool :=
  let sub := readDB reg db
  if dbGet sub key ≠ [] then (reg, false)
  else (writeDB reg db (dbSet sub key [val]), true)

/-- Modelled from the spec: single-value write that always overwrites. -/
def setVal (reg : Registry) (db key val : Bytes) : Registry × Bool :=
  (writeDB reg db (dbSet (readDB reg db) key [val]), true)

/-- Modelled from the spec: single-value read, `none` when absent. -/
def getVal (reg : Registry) (db key : Bytes) : Option Bytes :=
  (dbGet (readDB reg db) key).head?

/-- Modelled from the spec: single-value delete; false when the key is
absent. -/
def delVal (reg : Registry) (db key : Bytes) : Registry × Bool :=
  let sub := readDB reg db
  if dbGet sub key = [] then (reg, false)
  else (writeDB reg db (dbDel sub key), true)

/-- Modelled from the spec: read all duplicate values at a key, in the
stored (lexicographic) order. -/
def getVals (reg : Registry) (db key : Bytes) : List Bytes :=
  dbGet (readDB reg db) key

/-- Modelled from the spec: add one duplicate value at a key; an exact
(key, value) duplicate is rejected with false, otherwise the value is
inserted in lexicographic position. -/
def addVal (reg : Registry) (db key val : Bytes) : Registry × Bool :=
  let sub := readDB reg db
  let cur := dbGet sub key
  if val ∈ cur then (reg, false)
  else (writeDB reg db (dbSet sub key (insertSorted lexLe val cur)), true)

/-- Modelled from the spec: bulk add of duplicate values; returns true. -/
def putVals (reg : Registry) (db key : Bytes) (vals : List Bytes) : Registry × Bool :=
  (vals.foldl (fun r v => (addVal r db key v).1) reg, true)

/-- Modelled from the spec: count of duplicate values at a key. -/
def cntVals (reg : Registry) (db key : Bytes) : Nat :=
  (dbGet (readDB reg db) key).length

/-- Modelled from the spec: delete duplicates; with the empty value delete
all values at the key, otherwise delete the one matching duplicate. -/
def delVals (reg : Registry) (db key val : Bytes) : Registry × Bool :=
  let sub := readDB reg db
  let cur := dbGet sub key
  if val = [] then
    if cur = [] then (reg, false) else (writeDB reg db (dbDel sub key), true)
  else
    if val ∈ cur then (writeDB reg db (dbSet sub key (cur.erase val)), true)
    else (reg, false)

/-- Width of the internal ordering tag of insertion-ordered values. -/
def proemW : Nat := 8

/-- Modelled from the spec: insertion-ordered add.  Each stored value is
prefixed with a monotonically increasing fixed-width ordering tag, so the
lexicographic stored order reproduces insertion order; a value already
logically present at the key (ignoring the tag) is rejected with false. -/
def addIoVal (reg : Registry) (db key val : Bytes) : Registry × Bool :=
  let sub := readDB reg db
  let cur := dbGet sub key
  if val ∈ cur.map (fun e => e.drop proemW) then (reg, false)
  else
    let entry := encodeFixed proemW cur.length ++ val
    (writeDB reg db (dbSet sub key (insertSorted lexLe entry cur)), true)

/-- Modelled from the spec: bulk insertion-ordered add; true when at least
one value was added. -/
def putIoVals (reg : Registry) (db key : Bytes) (vals : List Bytes) : Registry × Bool :=
  vals.foldl (fun (r : Registry × Bool) v =>
    let s := addIoVal r.1 db key v
    (s.1, r.2 || s.2)) (reg, false)

/-- Modelled from the spec: insertion-ordered read; the ordering tags are
stripped, so values come back in insertion order. -/
def getIoVals (reg : Registry) (db key : Bytes) : List Bytes :=
  (dbGet (readDB reg db) key).map (fun e => e.drop proemW)

/-- Modelled from the spec: count of insertion-ordered values at a key. -/
def cntIoVals (reg : Registry) (db key : Bytes) : Nat :=
  (dbGet (readDB reg db) key).length

/-- Modelled from the spec: delete all insertion-ordered values at a key. -/
def delIoVals (reg : Registry) (db key : Bytes) : Registry × Bool :=
  let sub := readDB reg db
  if dbGet sub key = [] then (reg, false)
  else (writeDB reg db (dbDel sub key), true)

/-- Modelled from the spec: delete the insertion-ordered duplicate whose
logical value (tag stripped) matches. -/
def delIoVal (reg : Registry) (db key val : Bytes) : Registry × Bool :=
  let sub := readDB reg db
  let cur := dbGet sub key
  if val ∈ cur.map (fun e => e.drop proemW) then
    (writeDB reg db
      (dbSet sub key (cur.filter (fun e => e.drop proemW ≠ val))), true)
  else (reg, false)

/-! ## The eight named sub databases (Registry.reopen) -/

/-- Sub DB name bytes of .tvts (serialized TEL events). -/
def tvtsName : Bytes := [116, 118, 116, 115, 46]

/-- Sub DB name bytes of .tels (canonical sequence index). -/
def telsName : Bytes := [116, 101, 108, 115, 46]

/-- Sub DB name bytes of .ancs (anchor seal couples, no dupsort). -/
def ancsName : Bytes := [97, 110, 99, 115, 46]

/-- Sub DB name bytes of .tibs (indexed backer signatures, dupsort). -/
def tibsName : Bytes := [116, 105, 98, 115, 46]

/-- Sub DB name bytes of .baks (ordered backer list, dupsort). -/
def baksName : Bytes := [98, 97, 107, 115, 46]

/-- Sub DB name bytes of .oots (out-of-order escrow). -/
def ootsName : Bytes := [111, 111, 116, 115, 46]

/-- Sub DB name bytes of .twes (escrow of events short of witnesses). -/
def twesName : Bytes := [116, 119, 101, 115, 46]

/-- Sub DB name bytes of .taes (anchorless escrow). -/
def taesName : Bytes := [116, 97, 101, 115, 46]

/-! ## Registry methods (keri/vdr/viring.py) -/

/-- Registry.putTvt: write a serialized event, no overwrite. -/
def putTvt (reg : Registry) (key val : Bytes) : Registry × Bool :=
  putVal reg tvtsName key val

/-- Registry.setTvt: write a serialized event, overwriting. -/
def setTvt (reg : Registry) (key val : Bytes) : Registry × Bool :=
  setVal reg tvtsName key val

/-- Registry.getTvt: read the event at a digest key. -/
def getTvt (reg : Registry) (key : Bytes) : Option Bytes :=
  getVal reg tvtsName key

/-- Registry.delTvt: delete the event at a digest key. -/
def delTvt (reg : Registry) (key : Bytes) : Registry × Bool :=
  delVal reg tvtsName key

/-- Registry.putTel: write an event digest at a sequence key, no overwrite. -/
def putTel (reg : Registry) (key val : Bytes) : Registry × Bool :=
  putVal reg telsName key val

/-- Registry.setTel: write an event digest at a sequence key, overwriting. -/
def setTel (reg : Registry) (key val : Bytes) : Registry × Bool :=
  setVal reg telsName key val

/-- Registry.getTel: read the digest at a sequence key. -/
def getTel (reg : Registry) (key : Bytes) : Option Bytes :=
  getVal reg telsName key

/-- Registry.delTel: delete the digest at a sequence key. -/
def delTel (reg : Registry) (key : Bytes) : Registry × Bool :=
  delVal reg telsName key

/-- Registry.getTibs: indexed backer signatures at a digest key, in
lexicographic order. -/
def getTibs (reg : Registry) (key : Bytes) : List Bytes :=
  getVals reg tibsName key

/-- Registry.putTibs: bulk add of indexed backer signatures. -/
def putTibs (reg : Registry) (key : Bytes) (vals : List Bytes) : Registry × Bool :=
  putVals reg tibsName key vals

/-- Registry.addTib: add one indexed backer signature as a duplicate. -/
def addTib (reg : Registry) (key val : Bytes) : Registry × Bool :=
  addVal reg tibsName key val

/-- Registry.cntTibs: count of indexed backer signatures at a key. -/
def cntTibs (reg : Registry) (key : Bytes) : Nat :=
  cntVals reg tibsName key

/-- Registry.delTibs: delete all signatures at a key, or one duplicate. -/
def delTibs (reg : Registry) (key val : Bytes) : Registry × Bool :=
  delVals reg tibsName key val

/-- Registry.putTwe: file into the short-of-witnesses escrow, no overwrite. -/
def putTwe (reg : Registry) (key val : Bytes) : Registry × Bool :=
  putVal reg twesName key val

/-- Registry.setTwe: file into the short-of-witnesses escrow, overwriting. -/
def setTwe (reg : Registry) (key val : Bytes) : Registry × Bool :=
  setVal reg twesName key val

/-- Registry.getTwe: read the short-of-witnesses escrow. -/
def getTwe (reg : Registry) (key : Bytes) : Option Bytes :=
  getVal reg twesName key

/-- Registry.delTwe: delete from the short-of-witnesses escrow. -/
def delTwe (reg : Registry) (key : Bytes) : Registry × Bool :=
  delVal reg twesName key

/-- Registry.putTae: file into the anchorless escrow, no overwrite. -/
def putTae (reg : Registry) (key val : Bytes) : Registry × Bool :=
  putVal reg taesName key val

/-- Registry.setTae: file into the anchorless escrow, overwriting. -/
def setTae (reg : Registry) (key val : Bytes) : Registry × Bool :=
  setVal reg taesName key val

/-- Registry.getTae: read the anchorless escrow. -/
def getTae (reg : Registry) (key : Bytes) : Option Bytes :=
  getVal reg taesName key

/-- Registry.delTae: delete from the anchorless escrow. -/
def delTae (reg : Registry) (key : Bytes) : Registry × Bool :=
  delVal reg taesName key

/-- Registry.putOot: file into the out-of-order escrow, no overwrite. -/
def putOot (reg : Registry) (key val : Bytes) : Registry × Bool :=
  putVal reg ootsName key val

/-- Registry.setOot: file into the out-of-order escrow, overwriting. -/
def setOot (reg : Registry) (key val : Bytes) : Registry × Bool :=
  setVal reg ootsName key val

/-- Registry.getOot: read the out-of-order escrow. -/
def getOot (reg : Registry) (key : Bytes) : Option Bytes :=
  getVal reg ootsName key

/-- Registry.delOot: delete from the out-of-order escrow. -/
def delOot (reg : Registry) (key : Bytes) : Registry × Bool :=
  delVal reg ootsName key

/-- Registry.putAnc: write an anchor seal quadruple, no overwrite. -/
def putAnc (reg : Registry) (key val : Bytes) : Registry × Bool :=
  putVal reg ancsName key val

/-- Registry.setAnc: write an anchor seal quadruple, overwriting. -/
def setAnc (reg : Registry) (key val : Bytes) : Registry × Bool :=
  setVal reg ancsName key val

/-- Registry.getAnc: read the anchor seal quadruple at a digest key. -/
def getAnc (reg : Registry) (key : Bytes) : Option Bytes :=
  getVal reg ancsName key

/-- Registry.delAnc: delete the anchor seal at a digest key. -/
def delAnc (reg : Registry) (key : Bytes) : Registry × Bool :=
  delVal reg ancsName key

/-- Registry.putBaks: bulk add of backer prefixes, in insertion order. -/
def putBaks (reg : Registry) (key : Bytes) (vals : List Bytes) : Registry × Bool :=
  putIoVals reg baksName key vals

/-- Registry.addBak: add one backer prefix in insertion order. -/
def addBak (reg : Registry) (key val : Bytes) : Registry × Bool :=
  addIoVal reg baksName key val

/-- Registry.getBaks: backer prefixes at a key, in insertion order. -/
def getBaks (reg : Registry) (key : Bytes) : List Bytes :=
  getIoVals reg baksName key

/-- Registry.cntBaks: count of backer prefixes at a key. -/
def cntBaks (reg : Registry) (key : Bytes) : Nat :=
  cntIoVals reg baksName key

/-- Registry.delBaks: delete all backer prefixes at a key. -/
def delBaks (reg : Registry) (key : Bytes) : Registry × Bool :=
  delIoVals reg baksName key

/-- Registry.delBak: delete one backer prefix duplicate at a key. -/
def delBak (reg : Registry) (key val : Bytes) : Registry × Bool :=
  delIoVal reg baksName key val

/-! ## Prefix-ranged iteration and the replay engine -/

/-- Insert an (ordinal, digest) pair into a list sorted by ordinal. -/
def insertByFst (p : Nat × Bytes) : List (Nat × Bytes) → List (Nat × Bytes)
  | [] => [p]
  | q :: qs => if p.1 ≤ q.1 then p :: q :: qs else q :: insertByFst p qs

/-- Insertion sort of (ordinal, digest) pairs by ordinal. -/
def sortByFst : List (Nat × Bytes) → List (Nat × Bytes)
  | [] => []
  | p :: ps => insertByFst p (sortByFst ps)

/-- Modelled from the spec: prefix-ranged iteration
(dbing.getAllOrdItemPreIter is outside the sources).  Yields the
(ordinal, value) pairs of every key of the sub database that is a sequence
key of the given prefix with ordinal at or after the start, ascending by
ordinal. -/
def getAllOrdItemPreIter (reg : Registry) (db pre : Bytes) (start : Nat) :
    List (Nat × Bytes) :=
  sortByFst ((readDB reg db).filterMap (fun e =>
    match decodeSnKey pre e.1, e.2.head? with
    | some n, some d => if start ≤ n then some (n, d) else none
    | _, _ => none))

/-- Registry.getTelItemPreIter: all (fn, dig) duples of the canonical
sequence index of a prefix, in first seen order from fn. -/
def getTelItemPreIter (reg : Registry) (pre : Bytes) (fn : Nat) :
    List (Nat × Bytes) :=
  getAllOrdItemPreIter reg telsName pre fn

/-- Registry.cntTels: count of canonical (fn, dig) duples of a prefix. -/
def cntTels (reg : Registry) (pre : Bytes) (fn : Nat) : Nat :=
  (getTelItemPreIter reg pre fn).length

/-- Value of a Base64 URL-safe digit as its ASCII code. -/
def b64Char (d : Nat) : Nat :=
  if d < 26 then 65 + d
  else if d < 52 then 97 + (d - 26)
  else if d < 62 then 48 + (d - 52)
  else if d = 62 then 45 else 95

/-- Counter code of a counted witness indexed signature group. -/
def ctrWitnessIdxSigs : Nat := 66

/-- Counter code of a counted seal source couple group. -/
def ctrSealSourceCouples : Nat := 71

/-- Counter code of the attachment material quadlet header. -/
def ctrAttachedMaterialQuadlets : Nat := 86

/-- Modelled from the spec: the framing collaborator, an encoder that for a
tag and a count produces a fixed-format qualified header of one quadlet:
a dash, the tag char, and the count in two Base64 chars
(coring.Counter is outside the sources). -/
def counter (code count : Nat) : Bytes :=
  [45, code, b64Char (count / 64 % 64), b64Char (count % 64)]

/-- Replay errors: a dangling digest with no stored event, or an
attachment length that is not whole quadlets. -/
inductive ReplayErr where
  | missingEntry (dig : Bytes)
  | framingError (size : Nat)
  deriving DecidableEq, Repr

/-- The attachments assembled by Registry.clonePreIter for one event: the
witness indexed signature group when any signatures are stored, then the
seal source couple group when an anchor is stored. -/
def eventAtc (reg : Registry) (pre dig : Bytes) : Bytes :=
  let dgkey := dgKey pre dig
  let tibs := getTibs reg dgkey
  (if tibs.isEmpty then []
   else counter ctrWitnessIdxSigs tibs.length ++ tibs.flatten) ++
  (match getAnc reg dgkey with
   | none => []
   | some couple => counter ctrSealSourceCouples 1 ++ couple)

/-- The body of Registry.clonePreIter for one (fn, dig) item: fetch the
event (missing or empty is a MissingEntryError), assemble attachments,
reject a non-quadlet attachment length, then prepend the quadlet-count
header to the attachments after the event body. -/
def cloneMsg (reg : Registry) (pre dig : Bytes) : Except ReplayErr Bytes :=
  match getTvt reg (dgKey pre dig) with
  | none => .error (.missingEntry dig)
  | some raw =>
      if raw = [] then .error (.missingEntry dig)
      else
        let atc := eventAtc reg pre dig
        if atc.length % 4 ≠ 0 then .error (.framingError atc.length)
        else .ok (raw ++ counter ctrAttachedMaterialQuadlets (atc.length / 4) ++ atc)

/-- Generator semantics of Registry.clonePreIter: messages yielded before
a raised error, and the error if one was raised. -/
def cloneLoop (reg : Registry) (pre : Bytes) :
    List (Nat × Bytes) → List Bytes × Option ReplayErr
  | [] => ([], none)
  | item :: rest =>
      match cloneMsg reg pre item.2 with
      | .error e => ([], some e)
      | .ok m =>
          let r := cloneLoop reg pre rest
          (m :: r.1, r.2)

/-- Registry.clonePreIter: replay of the canonical sequence index of a
prefix from fn, as the yielded messages and the raised error if any. -/
def clonePreIter (reg : Registry) (pre : Bytes) (fn : Nat) :
    List Bytes × Option ReplayErr :=
  cloneLoop reg pre (getTelItemPreIter reg pre fn)

/-- A component of a namespaced key is textual or raw bytes. -/
inductive Comp where
  | str (s : String)
  | raw (b : Bytes)

/-- Bytes of a component: textual components are encoded as UTF-8. -/
def compBytes : Comp → Bytes
  | .str s => s.toUTF8.toList.map (fun b => b.toNat)
  | .raw b => b

/-- nsKey: join the byte forms of the components with the colon byte 58 as
delimiter, as the source joins with the colon byte string. -/
def nsKey (comps : List Comp) : Bytes :=
  List.intercalate [58] (comps.map compBytes)

/-- The namespaced key as the spec words it: the byte forms of the
components concatenated with the single fixed delimiter byte between
consecutive components. -/
def nsKeySpec : List Comp → Bytes
  | [] => []
  | [c] => compBytes c
  | c :: rest => compBytes c ++ 58 :: nsKeySpec rest

/-- Fold a list of signatures into the .tibs table at one key. -/
def tibsFold (k : Bytes) (l : List Bytes) : Registry :=
  l.foldl (fun r v => (addTib r k v).1) emptyReg

/-- Fold a list of backer prefixes into the .baks table at one key. -/
def baksFold (k : Bytes) (l : List Bytes) : Registry :=
  l.foldl (fun r v => (addBak r k v).1) emptyReg

/-- Values tagged with consecutive ordering proems starting at `i`: the
stored image of an insertion-ordered table holding the values in order. -/
def taggedFrom (i : Nat) : List Bytes → List Bytes
  | [] => []
  | v :: vs => (encodeFixed proemW i ++ v) :: taggedFrom (i + 1) vs

/-! ## Concrete states used by the claim instances -/

/-- Prefix of the three-event replay example. -/
def c1Pre : Bytes := [112]

/-- First indexed witness signature of the first event. -/
def c1SigA : Bytes := [65, 65, 65, 48]

/-- Second indexed witness signature of the first event. -/
def c1SigB : Bytes := [65, 65, 65, 49]

/-- The anchor seal source couple of the second event. -/
def c1Couple : Bytes := [67, 67, 67, 67, 68, 68, 68, 68]

/-- Registry holding three canonical events for `c1Pre`: event one with two
witness signatures (added in reverse lexicographic order), event two with
an anchor seal and no signatures, event three bare. -/
def c1Reg : Registry :=
  let r := (putTvt emptyReg (dgKey c1Pre [48]) [82, 48, 65, 65]).1
  let r := (putTvt r (dgKey c1Pre [49]) [82, 49, 65, 65]).1
  let r := (putTvt r (dgKey c1Pre [50]) [82, 50, 65, 65]).1
  let r := (putTel r (snKey c1Pre 0) [48]).1
  let r := (putTel r (snKey c1Pre 1) [49]).1
  let r := (putTel r (snKey c1Pre 2) [50]).1
  let r := (addTib r (dgKey c1Pre [48]) c1SigB).1
  let r := (addTib r (dgKey c1Pre [48]) c1SigA).1
  (putAnc r (dgKey c1Pre [49]) c1Couple).1

/-- Registry with one canonical event whose single stored signature is
three bytes, so its attachments are not whole quadlets. -/
def c3Reg : Registry :=
  let r := (putTvt emptyReg (dgKey [112] [48]) [82, 48, 65, 65]).1
  let r := (putTel r (snKey [112] 0) [48]).1
  (addTib r (dgKey [112] [48]) [65, 65, 66]).1

/-- Registry whose canonical sequence index references a digest with no
stored event body. -/
def c4Reg : Registry :=
  (putTel emptyReg (snKey [112] 0) [48]).1

/-! ## General lemmas about the store disciplines -/

theorem writeDB_frame (reg : Registry) (db sub d) (h : d ≠ db) :
    (writeDB reg db sub).store d = reg.store d := by
  simp [writeDB, h]

theorem putVal_frame (reg : Registry) (db k v d : Bytes) (h : d ≠ db) :
    (putVal reg db k v).1.store d = reg.store d := by
  by_cases hc : dbGet (readDB reg db) k = [] <;>
    simp [putVal, hc, writeDB, h]

theorem setVal_frame (reg : Registry) (db k v d : Bytes) (h : d ≠ db) :
    (setVal reg db k v).1.store d = reg.store d := by
  simp [setVal, writeDB, h]

theorem delVal_frame (reg : Registry) (db k d : Bytes) (h : d ≠ db) :
    (delVal reg db k).1.store d = reg.store d := by
  by_cases hc : dbGet (readDB reg db) k = [] <;>
    simp [delVal, hc, writeDB, h]

theorem addVal_frame (reg : Registry) (db k v d : Bytes) (h : d ≠ db) :
    (addVal reg db k v).1.store d = reg.store d := by
  by_cases hc : v ∈ dbGet (readDB reg db) k <;>
    simp [addVal, hc, writeDB, h]

theorem putVals_frame (reg : Registry) (db k : Bytes) (vals : List Bytes)
    (d : Bytes) (h : d ≠ db) :
    (putVals reg db k vals).1.store d = reg.store d := by
  simp only [putVals]
  induction vals generalizing reg with
  | nil => rfl
  | cons v vs ih =>
      simp only [List.foldl_cons]
      rw [ih]
      exact addVal_frame reg db k v d h

theorem delVals_frame (reg : Registry) (db k v d : Bytes) (h : d ≠ db) :
    (delVals reg db k v).1.store d = reg.store d := by
  simp only [delVals]
  by_cases h0 : v = []
  · by_cases hc : dbGet (readDB reg db) k = [] <;>
      simp [h0, hc, writeDB, h]
  · by_cases hm : v ∈ dbGet (readDB reg db) k <;>
      simp [h0, hm, writeDB, h]

theorem addIoVal_frame (reg : Registry) (db k v d : Bytes) (h : d ≠ db) :
    (addIoVal reg db k v).1.store d = reg.store d := by
  simp only [addIoVal]
  by_cases hm : v ∈ (dbGet (readDB reg db) k).map (fun e => e.drop proemW) <;>
    simp [hm, writeDB, h]

theorem putIoVals_frame (reg : Registry) (db k : Bytes) (vals : List Bytes)
    (d : Bytes) (h : d ≠ db) :
    (putIoVals reg db k vals).1.store d = reg.store d := by
  simp only [putIoVals]
  have main : ∀ (p : Registry × Bool),
      ((vals.foldl (fun (r : Registry × Bool) v =>
        let s := addIoVal r.1 db k v
        (s.1, r.2 || s.2)) p).1).store d = p.1.store d := by
    induction vals with
    | nil => intro p; rfl
    | cons v vs ih =>
        intro p
        simp only [List.foldl_cons]
        rw [ih]
        exact addIoVal_frame p.1 db k v d h
  exact main (reg, false)

theorem delIoVals_frame (reg : Registry) (db k d : Bytes) (h : d ≠ db) :
    (delIoVals reg db k).1.store d = reg.store d := by
  by_cases hc : dbGet (readDB reg db) k = [] <;>
    simp [delIoVals, hc, writeDB, h]

theorem delIoVal_frame (reg : Registry) (db k v d : Bytes) (h : d ≠ db) :
    (delIoVal reg db k v).1.store d = reg.store d := by
  simp only [delIoVal]
  by_cases hm : v ∈ (dbGet (readDB reg db) k).map (fun e => e.drop proemW) <;>
    simp [hm, writeDB, h]

theorem getVal_putVal_self (reg : Registry) (db k v : Bytes)
    (h : getVal reg db k = none) :
    getVal (putVal reg db k v).1 db k = some v := by
  have hemp : dbGet (reg.store db) k = [] := by
    cases hc : dbGet (reg.store db) k with
    | nil => rfl
    | cons a l => simp [getVal, readDB, hc] at h
  simp [putVal, readDB, hemp, getVal, writeDB, dbGet_dbSet_self]

theorem putVal_occupied (reg : Registry) (db k v w : Bytes)
    (h : getVal reg db k = some w) :
    putVal reg db k v = (reg, false) := by
  have hne : dbGet (readDB reg db) k ≠ [] := by
    intro hc
    simp [getVal, hc] at h
  simp [putVal, hne]

theorem getVal_setVal_self (reg : Registry) (db k v : Bytes) :
    getVal (setVal reg db k v).1 db k = some v := by
  simp [setVal, getVal, readDB, writeDB, dbGet_dbSet_self]

theorem getVal_putVal_other (reg : Registry) (db k v k' : Bytes)
    (h : k' ≠ k) :
    getVal (putVal reg db k v).1 db k' = getVal reg db k' := by
  by_cases hc : dbGet (reg.store db) k = []
  · simp [putVal, readDB, hc, getVal, writeDB, dbGet_dbSet_ne _ _ _ _ h]
  · simp [putVal, readDB, hc]

theorem intercalate_cons_two (sep a b : Bytes) (l : List Bytes) :
    List.intercalate sep (a :: b :: l) =
      a ++ sep ++ List.intercalate sep (b :: l) := by
  simp [List.intercalate, List.intersperse_cons_cons, List.append_assoc]

/-! ## Claim theorems -/

/-- C1: over a canonical index of exactly 3 events where event one has two
stored witness signatures and event two has an anchor seal and no
signatures, clonePreIter yields exactly 3 messages; the first message
carries a counted witness indexed signature group of count 2 followed by
the two signatures, the second a one-element seal source couple group, and
the third has empty attachments under a zero-count attachment quadlet
header. -/
theorem clone_three_event_replay :
    clonePreIter c1Reg c1Pre 0 =
      ([[82, 48, 65, 65] ++ counter ctrAttachedMaterialQuadlets 3 ++
          (counter ctrWitnessIdxSigs 2 ++ c1SigA ++ c1SigB),
        [82, 49, 65, 65] ++ counter ctrAttachedMaterialQuadlets 3 ++
          (counter ctrSealSourceCouples 1 ++ c1Couple),
        [82, 50, 65, 65] ++ counter ctrAttachedMaterialQuadlets 0], none) := by
  decide

/-- C2 counterexample: a single putTel into an empty registry at sequence
number 1 leaves the canonical sequence index holding 1 but not 0, so an
operation of the program can leave the index of a prefix with a gap. -/
theorem putTel_leaves_gap_counterexample :
    getTel (putTel emptyReg (snKey [97] 1) [68]).1 (snKey [97] 1) = some [68] ∧
    getTel (putTel emptyReg (snKey [97] 1) [68]).1 (snKey [97] 0) = none := by
  decide

/-- C2 amended: putTel writes the digest at exactly the supplied sequence
key, leaving every other sequence key unchanged and checking nothing about
lower sequence numbers; the no-gap shape of the canonical index is the
callers responsibility, not enforced by the registry. -/
theorem putTel_writes_only_supplied_key (reg : Registry) (k v k' : Bytes)
    (h : k' ≠ k) :
    getTel (putTel reg k v).1 k' = getTel reg k' ∧
    (getTel reg k = none → getTel (putTel reg k v).1 k = some v) :=
  ⟨getVal_putVal_other reg telsName k v k' h,
   fun h2 => getVal_putVal_self reg telsName k v h2⟩

/-- Witness for the amended C2 at sequence keys 0 and 1 of a concrete
prefix. -/
theorem putTel_writes_only_supplied_key_witness :
    getTel (putTel emptyReg (snKey [97] 1) [68]).1 (snKey [97] 0) =
      getTel emptyReg (snKey [97] 0) ∧
    getTel (putTel emptyReg (snKey [97] 1) [68]).1 (snKey [97] 1) = some [68] :=
  have h := putTel_writes_only_supplied_key emptyReg (snKey [97] 1) [68]
    (snKey [97] 0) (by decide)
  ⟨h.1, h.2 (by decide)⟩

/-- C5 counterexample: the .ancs table does not accept duplicate
quadruples at one digest key; a second putAnc at an occupied key returns
false and the stored entries at the key remain the single first
quadruple. -/
theorem ancs_dup_rejected_counterexample :
    (putAnc (putAnc emptyReg [107] [81, 49]).1 [107] [81, 50]).2 = false ∧
    getVals (putAnc (putAnc emptyReg [107] [81, 49]).1 [107] [81, 50]).1
      ancsName [107] = [[81, 49]] := by
  decide

/-- C5 amended: the .ancs table is opened without duplicate support and is
single valued: putAnc at an occupied key returns false and leaves the
stored quadruple unchanged, and getAnc returns that single stored
quadruple. -/
theorem ancs_single_slot (reg : Registry) (k q q' : Bytes)
    (h : getAnc reg k = some q) :
    putAnc reg k q' = (reg, false) ∧
    getAnc (putAnc reg k q').1 k = some q := by
  have h1 := putVal_occupied reg ancsName k q' q h
  refine ⟨h1, ?_⟩
  show getAnc (putVal reg ancsName k q').1 k = some q
  rw [h1]
  exact h

/-- Witness for the amended C5 at a concrete occupied key. -/
theorem ancs_single_slot_witness :
    putAnc (putAnc emptyReg [107] [81, 49]).1 [107] [81, 50] =
      ((putAnc emptyReg [107] [81, 49]).1, false) ∧
    getAnc (putAnc (putAnc emptyReg [107] [81, 49]).1 [107] [81, 50]).1 [107] =
      some [81, 49] :=
  ancs_single_slot (putAnc emptyReg [107] [81, 49]).1 [107] [81, 49] [81, 50]
    (by decide)

/-- C8: the event store is write-once: putTvt against an occupied key
returns false leaving the registry unchanged, setTvt always overwrites,
and putTvt on a fresh key stores the value that getTvt then returns. -/
theorem tvts_write_once (reg : Registry) (k v w : Bytes) :
    (getTvt reg k = some w → putTvt reg k v = (reg, false)) ∧
    getTvt (setTvt reg k v).1 k = some v ∧
    (getTvt reg k = none → getTvt (putTvt reg k v).1 k = some v) :=
  ⟨fun h => putVal_occupied reg tvtsName k v w h,
   getVal_setVal_self reg tvtsName k v,
   fun h => getVal_putVal_self reg tvtsName k v h⟩

/-- Witness for C8 at a concrete key: a second put is refused, a set
overwrites, and a put on the fresh key is read back. -/
theorem tvts_write_once_witness :
    putTvt (putTvt emptyReg [107] [86, 49]).1 [107] [86, 50] =
      ((putTvt emptyReg [107] [86, 49]).1, false) ∧
    getTvt (setTvt (putTvt emptyReg [107] [86, 49]).1 [107] [86, 50]).1 [107] =
      some [86, 50] ∧
    getTvt (putTvt emptyReg [107] [86, 49]).1 [107] = some [86, 49] :=
  ⟨(tvts_write_once (putTvt emptyReg [107] [86, 49]).1 [107] [86, 50] [86, 49]).1
      (by decide),
   (tvts_write_once (putTvt emptyReg [107] [86, 49]).1 [107] [86, 50] [86, 49]).2.1,
   (tvts_write_once emptyReg [107] [86, 49] []).2.2 (by decide)⟩

/-- C9: nsKey normalizes every textual component to its UTF-8 bytes and
concatenates the components with the single fixed delimiter byte between
consecutive components. -/
theorem nsKey_eq_spec (comps : List Comp) : nsKey comps = nsKeySpec comps := by
  induction comps with
  | nil => rfl
  | cons c rest ih =>
      cases rest with
      | nil => simp [nsKey, nsKeySpec, List.intercalate]
      | cons c' rest' =>
          have h2 : nsKey (c :: c' :: rest') =
              compBytes c ++ [58] ++ nsKey (c' :: rest') := by
            simp only [nsKey, List.map_cons]
            exact intercalate_cons_two [58] (compBytes c) (compBytes c')
              (rest'.map compBytes)
          rw [h2, ih]
          simp [nsKeySpec, List.append_assoc]

/-- C10: the eight tables are independently named regions: every put, set,
add and delete of one table leaves the sub database of any differently
named table unchanged; in particular filing into an escrow queue never
modifies the canonical sequence index or the event store. -/
theorem tables_independent (reg : Registry) (k v : Bytes) (vals : List Bytes)
    (d : Bytes) :
    (d ≠ tvtsName →
      (putTvt reg k v).1.store d = reg.store d ∧
      (setTvt reg k v).1.store d = reg.store d ∧
      (delTvt reg k).1.store d = reg.store d) ∧
    (d ≠ telsName →
      (putTel reg k v).1.store d = reg.store d ∧
      (setTel reg k v).1.store d = reg.store d ∧
      (delTel reg k).1.store d = reg.store d) ∧
    (d ≠ tibsName →
      (putTibs reg k vals).1.store d = reg.store d ∧
      (addTib reg k v).1.store d = reg.store d ∧
      (delTibs reg k v).1.store d = reg.store d) ∧
    (d ≠ twesName →
      (putTwe reg k v).1.store d = reg.store d ∧
      (setTwe reg k v).1.store d = reg.store d ∧
      (delTwe reg k).1.store d = reg.store d) ∧
    (d ≠ taesName →
      (putTae reg k v).1.store d = reg.store d ∧
      (setTae reg k v).1.store d = reg.store d ∧
      (delTae reg k).1.store d = reg.store d) ∧
    (d ≠ ootsName →
      (putOot reg k v).1.store d = reg.store d ∧
      (setOot reg k v).1.store d = reg.store d ∧
      (delOot reg k).1.store d = reg.store d) ∧
    (d ≠ ancsName →
      (putAnc reg k v).1.store d = reg.store d ∧
      (setAnc reg k v).1.store d = reg.store d ∧
      (delAnc reg k).1.store d = reg.store d) ∧
    (d ≠ baksName →
      (putBaks reg k vals).1.store d = reg.store d ∧
      (addBak reg k v).1.store d = reg.store d ∧
      (delBaks reg k).1.store d = reg.store d ∧
      (delBak reg k v).1.store d = reg.store d) :=
  ⟨fun h => ⟨putVal_frame reg tvtsName k v d h, setVal_frame reg tvtsName k v d h,
     delVal_frame reg tvtsName k d h⟩,
   fun h => ⟨putVal_frame reg telsName k v d h, setVal_frame reg telsName k v d h,
     delVal_frame reg telsName k d h⟩,
   fun h => ⟨putVals_frame reg tibsName k vals d h, addVal_frame reg tibsName k v d h,
     delVals_frame reg tibsName k v d h⟩,
   fun h => ⟨putVal_frame reg twesName k v d h, setVal_frame reg twesName k v d h,
     delVal_frame reg twesName k d h⟩,
   fun h => ⟨putVal_frame reg taesName k v d h, setVal_frame reg taesName k v d h,
     delVal_frame reg taesName k d h⟩,
   fun h => ⟨putVal_frame reg ootsName k v d h, setVal_frame reg ootsName k v d h,
     delVal_frame reg ootsName k d h⟩,
   fun h => ⟨putVal_frame reg ancsName k v d h, setVal_frame reg ancsName k v d h,
     delVal_frame reg ancsName k d h⟩,
   fun h => ⟨putIoVals_frame reg baksName k vals d h, addIoVal_frame reg baksName k v d h,
     delIoVals_frame reg baksName k d h, delIoVal_frame reg baksName k v d h⟩⟩

/-- Witness for C10: on a concrete registry, filing into the out-of-order
escrow leaves the canonical sequence index and the event store untouched,
and an event-store write leaves the canonical sequence index untouched. -/
theorem tables_independent_witness :
    (putOot (putTel emptyReg (snKey [112] 0) [48]).1 (snKey [112] 1) [49]).1.store
        telsName = (putTel emptyReg (snKey [112] 0) [48]).1.store telsName ∧
    (putOot (putTel emptyReg (snKey [112] 0) [48]).1 (snKey [112] 1) [49]).1.store
        tvtsName = (putTel emptyReg (snKey [112] 0) [48]).1.store tvtsName ∧
    (putTvt (putTel emptyReg (snKey [112] 0) [48]).1 (dgKey [112] [48]) [82]).1.store
        telsName = (putTel emptyReg (snKey [112] 0) [48]).1.store telsName :=
  ⟨((tables_independent (putTel emptyReg (snKey [112] 0) [48]).1 (snKey [112] 1)
      [49] [] telsName).2.2.2.2.2.1 (by decide)).1,
   ((tables_independent (putTel emptyReg (snKey [112] 0) [48]).1 (snKey [112] 1)
      [49] [] tvtsName).2.2.2.2.2.1 (by decide)).1,
   ((tables_independent (putTel emptyReg (snKey [112] 0) [48]).1 (dgKey [112] [48])
      [82] [] telsName).1 (by decide)).1⟩

theorem cloneLoop_ok_prefix (reg : Registry) (pre : Bytes)
    (before rest : List (Nat × Bytes))
    (hok : ∀ p ∈ before, ∃ m, cloneMsg reg pre p.2 = Except.ok m) :
    (cloneLoop reg pre (before ++ rest)).1.length =
      before.length + (cloneLoop reg pre rest).1.length ∧
    (cloneLoop reg pre (before ++ rest)).2 = (cloneLoop reg pre rest).2 := by
  induction before with
  | nil => simp
  | cons p ps ih =>
      obtain ⟨m, hm⟩ := hok p (List.mem_cons_self p ps)
      have step := ih (fun q hq => hok q (List.mem_cons_of_mem p hq))
      simp only [List.cons_append, cloneLoop, hm, List.length_cons, List.append_eq]
      exact ⟨by rw [step.1]; omega, step.2⟩

/-- C3: when the accumulated attachments of an event are not whole
quadlets, clonePreIter raises the framing error and yields no message for
that event: the yielded messages are exactly one per event before it. -/
theorem clone_framing_aborts_event (reg : Registry) (pre : Bytes) (fn : Nat)
    (before after : List (Nat × Bytes)) (f : Nat) (dig raw : Bytes)
    (hsplit : getTelItemPreIter reg pre fn = before ++ (f, dig) :: after)
    (hok : ∀ p ∈ before, ∃ m, cloneMsg reg pre p.2 = Except.ok m)
    (htvt : getTvt reg (dgKey pre dig) = some raw) (hraw : raw ≠ [])
    (hbad : (eventAtc reg pre dig).length % 4 ≠ 0) :
    (clonePreIter reg pre fn).2 =
      some (ReplayErr.framingError (eventAtc reg pre dig).length) ∧
    (clonePreIter reg pre fn).1.length = before.length := by
  have herr : cloneMsg reg pre dig =
      Except.error (ReplayErr.framingError (eventAtc reg pre dig).length) := by
    simp [cloneMsg, htvt, hraw, hbad]
  have htail : cloneLoop reg pre ((f, dig) :: after) =
      ([], some (ReplayErr.framingError (eventAtc reg pre dig).length)) := by
    simp [cloneLoop, herr]
  have hpre := cloneLoop_ok_prefix reg pre before ((f, dig) :: after) hok
  constructor
  · show (cloneLoop reg pre (getTelItemPreIter reg pre fn)).2 = _
    rw [hsplit, hpre.2, htail]
  · show (cloneLoop reg pre (getTelItemPreIter reg pre fn)).1.length = _
    rw [hsplit, hpre.1, htail]
    simp

/-- Witness for C3: one canonical event whose lone three-byte signature
gives seven attachment bytes; the replay raises the framing error and
yields no message. -/
theorem clone_framing_aborts_event_witness :
    (clonePreIter c3Reg [112] 0).2 =
      some (ReplayErr.framingError (eventAtc c3Reg [112] [48]).length) ∧
    (clonePreIter c3Reg [112] 0).1.length = 0 :=
  clone_framing_aborts_event c3Reg [112] 0 [] [] 0 [48] [82, 48, 65, 65]
    (by decide) (by simp) (by decide) (by decide) (by decide)

/-- C4: when the canonical sequence index references a digest whose event
record is missing from the event store (or stored empty), clonePreIter
raises the missing entry error, which propagates: iteration stops with the
error rather than skipping the event, and only the events before it have
yielded messages. -/
theorem clone_missing_event_raises (reg : Registry) (pre : Bytes) (fn : Nat)
    (before after : List (Nat × Bytes)) (f : Nat) (dig : Bytes)
    (hsplit : getTelItemPreIter reg pre fn = before ++ (f, dig) :: after)
    (hok : ∀ p ∈ before, ∃ m, cloneMsg reg pre p.2 = Except.ok m)
    (htvt : getTvt reg (dgKey pre dig) = none ∨
            getTvt reg (dgKey pre dig) = some []) :
    (clonePreIter reg pre fn).2 = some (ReplayErr.missingEntry dig) ∧
    (clonePreIter reg pre fn).1.length = before.length := by
  have herr : cloneMsg reg pre dig = Except.error (ReplayErr.missingEntry dig) := by
    rcases htvt with h | h <;> simp [cloneMsg, h]
  have htail : cloneLoop reg pre ((f, dig) :: after) =
      ([], some (ReplayErr.missingEntry dig)) := by
    simp [cloneLoop, herr]
  have hpre := cloneLoop_ok_prefix reg pre before ((f, dig) :: after) hok
  constructor
  · show (cloneLoop reg pre (getTelItemPreIter reg pre fn)).2 = _
    rw [hsplit, hpre.2, htail]
  · show (cloneLoop reg pre (getTelItemPreIter reg pre fn)).1.length = _
    rw [hsplit, hpre.1, htail]
    simp

/-- Witness for C4: a canonical index entry whose digest has no stored
event; the replay raises the missing entry error and yields nothing. -/
theorem clone_missing_event_raises_witness :
    (clonePreIter c4Reg [112] 0).2 = some (ReplayErr.missingEntry [48]) ∧
    (clonePreIter c4Reg [112] 0).1.length = 0 :=
  clone_missing_event_raises c4Reg [112] 0 [] [] 0 [48]
    (by decide) (by simp) (Or.inl (by decide))

theorem lexLe_total : ∀ a b : Bytes, lexLe a b = true ∨ lexLe b a = true := by
  intro a
  induction a with
  | nil => intro b; left; rfl
  | cons x xs ih =>
      intro b
      cases b with
      | nil => right; rfl
      | cons y ys =>
          rcases Nat.lt_trichotomy x y with h | h | h
          · left; simp [lexLe, h]
          · subst h
            rcases ih ys with h2 | h2
            · left; simp [lexLe, h2]
            · right; simp [lexLe, h2]
          · right; simp [lexLe, h]

theorem lexLe_antisymm : ∀ a b : Bytes,
    lexLe a b = true → lexLe b a = true → a = b := by
  intro a
  induction a with
  | nil =>
      intro b h1 h2
      cases b with
      | nil => rfl
      | cons y ys => simp [lexLe] at h2
  | cons x xs ih =>
      intro b h1 h2
      cases b with
      | nil => simp [lexLe] at h1
      | cons y ys =>
          rcases Nat.lt_trichotomy x y with h | h | h
          · simp [lexLe, h, Nat.lt_asymm h] at h2
          · subst h
            simp only [lexLe, Nat.lt_irrefl, if_false] at h1 h2
            rw [ih ys h1 h2]
          · simp [lexLe, h, Nat.lt_asymm h] at h1

theorem lexLe_trans : ∀ a b c : Bytes,
    lexLe a b = true → lexLe b c = true → lexLe a c = true := by
  intro a
  induction a with
  | nil => intro b c h1 h2; rfl
  | cons x xs ih =>
      intro b c h1 h2
      cases b with
      | nil => simp [lexLe] at h1
      | cons y ys =>
          cases c with
          | nil => simp [lexLe] at h2
          | cons z zs =>
              simp only [lexLe] at h1 h2 ⊢
              rcases Nat.lt_trichotomy x y with hxy | hxy | hxy
              · rcases Nat.lt_trichotomy y z with hyz | hyz | hyz
                · simp [Nat.lt_trans hxy hyz]
                · subst hyz; simp [hxy]
                · simp [hyz, Nat.lt_asymm hyz] at h2
              · subst hxy
                rcases Nat.lt_trichotomy x z with hyz | hyz | hyz
                · simp [hyz]
                · subst hyz
                  simp only [Nat.lt_irrefl, if_false] at h1 h2 ⊢
                  exact ih ys zs h1 h2
                · simp [hyz, Nat.lt_asymm hyz] at h2
              · simp [hxy, Nat.lt_asymm hxy] at h1

theorem pairwise_insertSorted (x : Bytes) (l : List Bytes)
    (hs : l.Pairwise (fun a b => lexLe a b = true)) :
    (insertSorted lexLe x l).Pairwise (fun a b => lexLe a b = true) := by
  induction l with
  | nil => simp [insertSorted]
  | cons y ys ih =>
      rw [List.pairwise_cons] at hs
      obtain ⟨hy, hys⟩ := hs
      by_cases h : lexLe x y = true
      · simp only [insertSorted, if_pos h, List.pairwise_cons]
        refine ⟨?_, ⟨hy, hys⟩⟩
        intro z hz
        rcases List.mem_cons.1 hz with rfl | hz2
        · exact h
        · exact lexLe_trans x y z h (hy z hz2)
      · simp only [insertSorted, if_neg h, List.pairwise_cons]
        refine ⟨?_, ih hys⟩
        intro z hz
        rcases (mem_insertSorted lexLe x z ys).1 hz with rfl | hz2
        · rcases lexLe_total z y with h2 | h2
          · exact absurd h2 h
          · exact h2
        · exact hy z hz2

theorem nodup_insertSorted (x : Bytes) (l : List Bytes)
    (hx : x ∉ l) (hl : l.Nodup) : (insertSorted lexLe x l).Nodup := by
  induction l with
  | nil => simp [insertSorted]
  | cons y ys ih =>
      rw [List.nodup_cons] at hl
      obtain ⟨hy, hys⟩ := hl
      have hxy : x ≠ y := fun h => hx (h ▸ List.mem_cons_self y ys)
      have hxys : x ∉ ys := fun h => hx (List.mem_cons_of_mem y h)
      by_cases h : lexLe x y = true
      · simp only [insertSorted, if_pos h, List.nodup_cons]
        refine ⟨?_, ⟨hy, hys⟩⟩
        intro hmem
        rcases List.mem_cons.1 hmem with h2 | h2
        · exact hxy h2
        · exact hxys h2
      · simp only [insertSorted, if_neg h, List.nodup_cons]
        refine ⟨?_, ih hxys hys⟩
        intro hmem
        rcases (mem_insertSorted lexLe x y ys).1 hmem with h2 | h2
        · exact hxy h2.symm
        · exact hy h2

theorem sorted_nodup_eq : ∀ (l m : List Bytes),
    l.Pairwise (fun a b => lexLe a b = true) →
    m.Pairwise (fun a b => lexLe a b = true) →
    l.Nodup → m.Nodup → (∀ x, x ∈ l ↔ x ∈ m) → l = m := by
  intro l
  induction l with
  | nil =>
      intro m _ _ _ _ hmem
      cases m with
      | nil => rfl
      | cons b bs =>
          exact absurd ((hmem b).2 (List.mem_cons_self b bs)) (List.not_mem_nil b)
  | cons a as ih =>
      intro m hl hm hln hmn hmem
      cases m with
      | nil =>
          exact absurd ((hmem a).1 (List.mem_cons_self a as)) (List.not_mem_nil a)
      | cons b bs =>
          rw [List.pairwise_cons] at hl hm
          rw [List.nodup_cons] at hln hmn
          have hab : a = b := by
            rcases List.mem_cons.1 ((hmem a).1 (List.mem_cons_self a as)) with h | hab2
            · exact h
            · rcases List.mem_cons.1 ((hmem b).2 (List.mem_cons_self b bs)) with h | hba2
              · exact h.symm
              · exact lexLe_antisymm a b (hl.1 b hba2) (hm.1 a hab2)
          subst hab
          have hrest : ∀ x, x ∈ as ↔ x ∈ bs := by
            intro x
            constructor
            · intro hx
              rcases List.mem_cons.1 ((hmem x).1 (List.mem_cons_of_mem a hx)) with h | h
              · exact absurd (h ▸ hx) hln.1
              · exact h
            · intro hx
              rcases List.mem_cons.1 ((hmem x).2 (List.mem_cons_of_mem a hx)) with h | h
              · exact absurd (h ▸ hx) hmn.1
              · exact h
          rw [ih bs hl.2 hm.2 hln.2 hmn.2 hrest]

theorem addTib_mem (r : Registry) (k v : Bytes) (h : v ∈ getTibs r k) :
    addTib r k v = (r, false) := by
  have h2 : v ∈ dbGet (readDB r tibsName) k := h
  simp [addTib, addVal, h2]

theorem getTibs_addTib (r : Registry) (k v : Bytes) (h : v ∉ getTibs r k) :
    getTibs (addTib r k v).1 k = insertSorted lexLe v (getTibs r k) := by
  have h2 : v ∉ dbGet (readDB r tibsName) k := h
  simp only [addTib, addVal, if_neg h2]
  show dbGet (readDB (writeDB r tibsName _) tibsName) k = _
  simp [readDB, writeDB, dbGet_dbSet_self]
  rfl

theorem tibs_fold_aux (k : Bytes) : ∀ (l : List Bytes) (r : Registry),
    (getTibs r k).Pairwise (fun a b => lexLe a b = true) →
    (getTibs r k).Nodup →
    (getTibs (l.foldl (fun r v => (addTib r k v).1) r) k).Pairwise
      (fun a b => lexLe a b = true) ∧
    (getTibs (l.foldl (fun r v => (addTib r k v).1) r) k).Nodup ∧
    (∀ a, a ∈ getTibs (l.foldl (fun r v => (addTib r k v).1) r) k ↔
      a ∈ getTibs r k ∨ a ∈ l) := by
  intro l
  induction l with
  | nil =>
      intro r h1 h2
      exact ⟨h1, h2, fun a => by simp⟩
  | cons v vs ih =>
      intro r h1 h2
      simp only [List.foldl_cons]
      by_cases hv : v ∈ getTibs r k
      · rw [addTib_mem r k v hv]
        obtain ⟨g1, g2, g3⟩ := ih r h1 h2
        refine ⟨g1, g2, fun a => ?_⟩
        rw [g3 a]
        constructor
        · rintro (h | h)
          · exact Or.inl h
          · exact Or.inr (List.mem_cons_of_mem v h)
        · rintro (h | h)
          · exact Or.inl h
          · rcases List.mem_cons.1 h with rfl | h
            · exact Or.inl hv
            · exact Or.inr h
      · have hstep := getTibs_addTib r k v hv
        have s1 : (getTibs (addTib r k v).1 k).Pairwise
            (fun a b => lexLe a b = true) := by
          rw [hstep]; exact pairwise_insertSorted v _ h1
        have s2 : (getTibs (addTib r k v).1 k).Nodup := by
          rw [hstep]; exact nodup_insertSorted v _ hv h2
        obtain ⟨g1, g2, g3⟩ := ih (addTib r k v).1 s1 s2
        refine ⟨g1, g2, fun a => ?_⟩
        rw [g3 a, hstep, mem_insertSorted]
        constructor
        · rintro ((h | h) | h)
          · exact Or.inr (h ▸ List.mem_cons_self v vs)
          · exact Or.inl h
          · exact Or.inr (List.mem_cons_of_mem v h)
        · rintro (h | h)
          · exact Or.inl (Or.inr h)
          · rcases List.mem_cons.1 h with rfl | h
            · exact Or.inl (Or.inl rfl)
            · exact Or.inr h

/-- C6: re-adding an identical (key, value) signature with addTib returns
false and leaves the registry unchanged, and the signatures getTibs
retrieves are sorted lexicographically by value, the same for any
insertion order of the same signatures. -/
theorem tibs_idempotent_sorted (reg : Registry) (k v : Bytes)
    (vals1 vals2 : List Bytes) (hperm : vals1.Perm vals2) :
    addTib (addTib reg k v).1 k v = ((addTib reg k v).1, false) ∧
    getTibs (tibsFold k vals1) k = getTibs (tibsFold k vals2) k ∧
    (getTibs (tibsFold k vals1) k).Pairwise (fun a b => lexLe a b = true) := by
  simp only [tibsFold]
  have hempty1 : (getTibs emptyReg k).Pairwise (fun a b => lexLe a b = true) :=
    List.Pairwise.nil
  have hempty2 : (getTibs emptyReg k).Nodup := List.Pairwise.nil
  obtain ⟨p1, p2, p3⟩ := tibs_fold_aux k vals1 emptyReg hempty1 hempty2
  obtain ⟨q1, q2, q3⟩ := tibs_fold_aux k vals2 emptyReg hempty1 hempty2
  refine ⟨?_, ?_, p1⟩
  · by_cases hv : v ∈ getTibs reg k
    · rw [addTib_mem reg k v hv]
      exact addTib_mem reg k v hv
    · refine addTib_mem (addTib reg k v).1 k v ?_
      rw [getTibs_addTib reg k v hv, mem_insertSorted]
      exact Or.inl rfl
  · refine sorted_nodup_eq _ _ p1 q1 p2 q2 fun x => ?_
    rw [p3 x, q3 x]
    have hm : x ∈ vals1 ↔ x ∈ vals2 := hperm.mem_iff
    constructor
    · rintro (h | h)
      · cases h
      · exact Or.inr (hm.1 h)
    · rintro (h | h)
      · cases h
      · exact Or.inr (hm.2 h)

/-- Witness for C6: the same two signatures added in either order read
back identically and sorted, and a duplicate add is refused. -/
theorem tibs_idempotent_sorted_witness :
    addTib (addTib emptyReg [107] [66]).1 [107] [66] =
      ((addTib emptyReg [107] [66]).1, false) ∧
    getTibs (tibsFold [107] [[66], [65]]) [107] =
      getTibs (tibsFold [107] [[65], [66]]) [107] ∧
    (getTibs (tibsFold [107] [[66], [65]]) [107]).Pairwise
      (fun a b => lexLe a b = true) :=
  tibs_idempotent_sorted emptyReg [107] [66] [[66], [65]] [[65], [66]]
    (by decide)

theorem digitChar_lt_digitChar (d e : Nat) (h : d < e) :
    digitChar d < digitChar e := by
  unfold digitChar
  split_ifs <;> omega

theorem lexLe_encode_gt_false : ∀ (w m n : Nat) (u v : Bytes), m < n →
    n < 16 ^ w → lexLe (encodeFixed w n ++ u) (encodeFixed w m ++ v) = false := by
  intro w
  induction w with
  | zero =>
      intro m n u v h1 h2
      exfalso
      rw [pow_zero] at h2
      omega
  | succ w ih =>
      intro m n u v h1 h2
      have hpos : 0 < 16 ^ w := pow_pos (by norm_num) w
      simp only [encodeFixed, List.cons_append]
      have hd : m / 16 ^ w ≤ n / 16 ^ w := Nat.div_le_div_right (Nat.le_of_lt h1)
      by_cases heq : m / 16 ^ w = n / 16 ^ w
      · rw [heq]
        have hmod : m % 16 ^ w < n % 16 ^ w := by
          have e1 := Nat.div_add_mod n (16 ^ w)
          have e2 := Nat.div_add_mod m (16 ^ w)
          rw [heq] at e2
          set t := 16 ^ w * (n / 16 ^ w) with ht
          omega
        have hmodlt : n % 16 ^ w < 16 ^ w := Nat.mod_lt _ hpos
        have hrec := ih (m % 16 ^ w) (n % 16 ^ w) u v hmod hmodlt
        simp [lexLe, hrec]
      · have hdlt : m / 16 ^ w < n / 16 ^ w := lt_of_le_of_ne hd heq
        have hc := digitChar_lt_digitChar _ _ hdlt
        simp [lexLe, hc, Nat.lt_asymm hc]

theorem insertSorted_all_gt (x : Bytes) : ∀ l : List Bytes,
    (∀ y ∈ l, lexLe x y = false) → insertSorted lexLe x l = l ++ [x] := by
  intro l
  induction l with
  | nil => intro _; rfl
  | cons y ys ih =>
      intro h
      have hy := h y (List.mem_cons_self y ys)
      simp [insertSorted, hy, ih (fun z hz => h z (List.mem_cons_of_mem y hz))]

theorem encodeFixed_length : ∀ (w n : Nat), (encodeFixed w n).length = w := by
  intro w
  induction w with
  | zero => intro n; rfl
  | succ w ih => intro n; simp [encodeFixed, ih]

theorem drop_length_append (a b : Bytes) : (a ++ b).drop a.length = b := by
  induction a with
  | nil => rfl
  | cons x xs ih => simp [ih]

theorem taggedFrom_strip (vs : List Bytes) : ∀ i : Nat,
    (taggedFrom i vs).map (fun e => e.drop proemW) = vs := by
  induction vs with
  | nil => intro i; rfl
  | cons v vs ih =>
      intro i
      simp only [taggedFrom, List.map_cons, ih]
      have h : (encodeFixed proemW i ++ v).drop proemW = v := by
        have := drop_length_append (encodeFixed proemW i) v
        rwa [encodeFixed_length] at this
      rw [h]

theorem taggedFrom_length (vs : List Bytes) : ∀ i : Nat,
    (taggedFrom i vs).length = vs.length := by
  induction vs with
  | nil => intro i; rfl
  | cons v vs ih => intro i; simp [taggedFrom, ih]

theorem taggedFrom_snoc (v : Bytes) (vs : List Bytes) : ∀ i : Nat,
    taggedFrom i (vs ++ [v]) =
      taggedFrom i vs ++ [encodeFixed proemW (i + vs.length) ++ v] := by
  induction vs with
  | nil => intro i; simp [taggedFrom]
  | cons v' vs' ih =>
      intro i
      simp only [List.cons_append, taggedFrom, List.append_eq, List.length_cons]
      rw [ih (i + 1)]
      have h : i + 1 + vs'.length = i + (vs'.length + 1) := by omega
      rw [h]

theorem mem_taggedFrom (vs : List Bytes) : ∀ (i : Nat) (y : Bytes),
    y ∈ taggedFrom i vs →
    ∃ j v', j < vs.length ∧ y = encodeFixed proemW (i + j) ++ v' := by
  induction vs with
  | nil => intro i y hy; cases hy
  | cons v vs ih =>
      intro i y hy
      rcases List.mem_cons.1 hy with rfl | hy2
      · exact ⟨0, v, by simp, by simp⟩
      · obtain ⟨j, v', hj, rfl⟩ := ih (i + 1) y hy2
        refine ⟨j + 1, v', by simp; omega, ?_⟩
        have h : i + (j + 1) = i + 1 + j := by omega
        rw [h]

theorem addBak_mem (r : Registry) (k v : Bytes) (h : v ∈ getBaks r k) :
    addBak r k v = (r, false) := by
  have h2 : v ∈ (dbGet (readDB r baksName) k).map (fun e => e.drop proemW) := h
  simp [addBak, addIoVal, h2]

theorem baks_fold_aux (k : Bytes) : ∀ (todo vals0 : List Bytes) (r : Registry),
    (vals0 ++ todo).Nodup → (vals0 ++ todo).length ≤ 16 ^ proemW →
    dbGet (r.store baksName) k = taggedFrom 0 vals0 →
    dbGet ((todo.foldl (fun r v => (addBak r k v).1) r).store baksName) k =
      taggedFrom 0 (vals0 ++ todo) := by
  intro todo
  induction todo with
  | nil =>
      intro vals0 r _ _ hr
      simpa using hr
  | cons v vs ih =>
      intro vals0 r hnodup hlen hr
      simp only [List.foldl_cons]
      have hdisj := (List.nodup_append.1 hnodup).2.2
      have hvnot : v ∉ vals0 := fun hmem =>
        hdisj hmem (List.mem_cons_self v vs)
      have hcur : dbGet (readDB r baksName) k = taggedFrom 0 vals0 := hr
      have hmemmap :
          v ∉ (dbGet (readDB r baksName) k).map (fun e => e.drop proemW) := by
        rw [hcur, taggedFrom_strip]
        exact hvnot
      have hlen0 : vals0.length < 16 ^ proemW := by
        rw [List.length_append, List.length_cons] at hlen
        omega
      have hlencur : (dbGet (readDB r baksName) k).length = vals0.length := by
        rw [hcur, taggedFrom_length]
      have hall : ∀ y ∈ dbGet (readDB r baksName) k,
          lexLe (encodeFixed proemW (dbGet (readDB r baksName) k).length ++ v)
            y = false := by
        intro y hy
        rw [hcur] at hy
        obtain ⟨j, v', hj, rfl⟩ := mem_taggedFrom vals0 0 y hy
        rw [hlencur]
        exact lexLe_encode_gt_false proemW (0 + j) vals0.length v v'
          (by omega) hlen0
      have hstep : dbGet (((addBak r k v).1).store baksName) k =
          taggedFrom 0 (vals0 ++ [v]) := by
        simp only [addBak, addIoVal, if_neg hmemmap]
        show dbGet ((writeDB r baksName _).store baksName) k = _
        simp only [writeDB, if_true]
        rw [dbGet_dbSet_self,
          insertSorted_all_gt _ (dbGet (readDB r baksName) k) hall,
          hlencur, hcur, taggedFrom_snoc]
        simp
      have happ : (vals0 ++ [v]) ++ vs = vals0 ++ v :: vs := by simp
      have h1 : ((vals0 ++ [v]) ++ vs).Nodup := by rw [happ]; exact hnodup
      have h2 : ((vals0 ++ [v]) ++ vs).length ≤ 16 ^ proemW := by
        rw [happ]; exact hlen
      have hres := ih (vals0 ++ [v]) (addBak r k v).1 h1 h2 hstep
      rw [happ] at hres
      exact hres

/-- C7: backer prefixes read back from .baks in exactly the order of the
addBak calls that stored them (the internal ordering tag stripped on
read), whatever the lexicographic order of the values themselves, and a
value already logically present at the key is rejected with false, the
stored sequence unchanged. -/
theorem baks_insertion_order (k : Bytes) (vals : List Bytes) (r : Registry)
    (v : Bytes) (h1 : vals.Nodup) (h2 : vals.length ≤ 16 ^ proemW) :
    getBaks (baksFold k vals) k = vals ∧
    (v ∈ getBaks r k → addBak r k v = (r, false)) := by
  constructor
  · have haux := baks_fold_aux k vals [] emptyReg (by simpa using h1)
      (by simpa using h2) rfl
    rw [List.nil_append] at haux
    show (dbGet (readDB (baksFold k vals) baksName) k).map
      (fun e => e.drop proemW) = vals
    rw [show readDB (baksFold k vals) baksName =
      (vals.foldl (fun r v => (addBak r k v).1) emptyReg).store baksName
      from rfl]
    rw [haux]
    exact taggedFrom_strip vals 0
  · exact fun h => addBak_mem r k v h

/-- Witness for C7: two backer prefixes added in reverse lexicographic
order read back in insertion order, and a duplicate add is refused. -/
theorem baks_insertion_order_witness :
    getBaks (baksFold [107] [[66], [65]]) [107] = [[66], [65]] ∧
    addBak (baksFold [107] [[66], [65]]) [107] [66] =
      (baksFold [107] [[66], [65]], false) :=
  have h := baks_insertion_order [107] [[66], [65]]
    (baksFold [107] [[66], [65]]) [66] (by decide) (by decide)
  ⟨h.1, h.2 (by decide)⟩
